import Mathlib

/-!
Shallow embedding of the `math_stuff` numerical library (root finding,
Gauss-Legendre quadrature, histogram binning) over exact rationals.

Python floats are modelled as `ℚ`; the `while` loops of the source are
modelled as fuel-indexed recursions returning `Option` (`none` = fuel ran
out, which corresponds to no terminating run of the source loop), and
`raise ValueError` is modelled as `Except.error`.
-/

namespace MathStuff

/-- `_EPS = 1e-10` from root_finding.py. -/
def eps0 : ℚ := 1 / 10 ^ 10

/-! ### root_finding.py -/

/-- The `while abs(xr - xl) > eps` loop of `bisection`
(root_finding.py lines 52-63), followed by `return 0.5 * (xr + xl)`.
`0.5` is written `1/2`. -/
def bisection_loop (f : ℚ → ℚ) (eps : ℚ) : ℕ → ℚ → ℚ → ℚ → ℚ → Option ℚ
  | 0, _, _, _, _ => none
  | fuel + 1, xl, xr, fl, fr =>
    if |xr - xl| ≤ eps then some (1/2 * (xr + xl))
    else
      let x2 := 1/2 * (xl + xr)
      let f2 := f x2
      if fl * f2 > 0 then bisection_loop f eps fuel x2 xr f2 fr
      else if fr * f2 > 0 then bisection_loop f eps fuel xl x2 fl f2
      else some (1/2 * (xr + xl))

/-- `bisection` (root_finding.py lines 11-63): entry validation then loop. -/
def bisection (fuel : ℕ) (x_left x_right : ℚ) (f : ℚ → ℚ) (eps : ℚ) :
    Except String (Option ℚ) :=
  let fl := f x_left
  let fr := f x_right
  if fl = 0 then .error "Left bound is a root."
  else if fr = 0 then .error "Right bound is a root."
  else if fl * fr > 0 then .error "Function has same sign at left and right bounds."
  else .ok (bisection_loop f eps fuel x_left x_right fl fr)

/-- Loop state of `hybrid_secant_bisection`: bisection bounds `(xl, fl)`,
`(xr, fr)` and secant values `(x0, f0)`, `(x1, f1)`. -/
structure HState where
  xl : ℚ
  xr : ℚ
  fl : ℚ
  fr : ℚ
  x0 : ℚ
  x1 : ℚ
  f0 : ℚ
  f1 : ℚ

/-- The candidate computation of `hybrid_secant_bisection`
(root_finding.py lines 117-122): the secant step guarded by the
zero-denominator exception (`except ZeroDivisionError`) and by the
out-of-bracket test `x2 < xl or x2 > xr`. -/
def hybrid_candidate (s : HState) : ℚ :=
  if s.f1 - s.f0 = 0 then 1/2 * (s.xl + s.xr)
  else
    let x2 := s.x1 - s.f1 * (s.x1 - s.x0) / (s.f1 - s.f0)
    if x2 < s.xl ∨ x2 > s.xr then 1/2 * (s.xl + s.xr) else x2

/-- The `while abs(x0 - x1) > eps` loop of `hybrid_secant_bisection`
(root_finding.py lines 115-137), followed by `return 0.5 * (x0 + x1)`. -/
def hybrid_loop (f : ℚ → ℚ) (eps : ℚ) : ℕ → HState → Option ℚ
  | 0, _ => none
  | fuel + 1, s =>
    if |s.x0 - s.x1| ≤ eps then some (1/2 * (s.x0 + s.x1))
    else
      let x2 := hybrid_candidate s
      let f2 := f x2
      if s.fl * f2 > 0 then
        hybrid_loop f eps fuel
          { xl := x2, xr := s.xr, fl := f2, fr := s.fr,
            x0 := s.x1, x1 := x2, f0 := s.f1, f1 := f2 }
      else if s.fr * f2 > 0 then
        hybrid_loop f eps fuel
          { xl := s.xl, xr := x2, fl := s.fl, fr := f2,
            x0 := s.x1, x1 := x2, f0 := s.f1, f1 := f2 }
      else some (1/2 * (s.x1 + x2))

/-- `hybrid_secant_bisection` (root_finding.py lines 66-137): the same
entry validation as `bisection`, then the secant-bisection loop seeded
with `x0 = xl = x_left`, `x1 = xr = x_right`. -/
def hybrid_secant_bisection (fuel : ℕ) (x_left x_right : ℚ) (f : ℚ → ℚ) (eps : ℚ) :
    Except String (Option ℚ) :=
  let fl := f x_left
  let fr := f x_right
  if fl = 0 then .error "Left bound is a root."
  else if fr = 0 then .error "Right bound is a root."
  else if fl * fr > 0 then .error "Function has same sign at left and right bounds."
  else .ok (hybrid_loop f eps fuel
    { xl := x_left, xr := x_right, fl := fl, fr := fr,
      x0 := x_left, x1 := x_right, f0 := fl, f1 := fr })

/-! ### gaussian_quadratures.py -/

/-- The three-term recurrence loop of `legendre_polynomial`
(gaussian_quadratures.py lines 28-31).  `legendre_loop x m` is the pair of
the last two entries of the Python list `polynomials` after the iterations
`k = 1, ..., m` of `for k in range(1, n)`. -/
def legendre_loop (x : ℚ) : ℕ → ℚ × ℚ
  | 0 => (1, x)
  | m + 1 =>
    let p := legendre_loop x m
    let k : ℚ := (m : ℚ) + 1
    (p.2, ((2 * k + 1) * x * p.2 - k * p.1) / (k + 1))

/-- `legendre_polynomial` (gaussian_quadratures.py lines 13-32).  `n` is a
Python `int`, hence `ℤ`; for `n ≤ 1` outside the two base cases the loop
`for k in range(1, n)` runs zero times, modelled by `(n - 1).toNat = 0`. -/
def legendre_polynomial (x : ℚ) (n : ℤ) : ℚ :=
  if n = 0 then 1
  else if n = 1 then x
  else (legendre_loop x (n - 1).toNat).2

/-- The function value `polynomial(x, n)` used throughout
gaussian_quadratures.py with `polynomial = legendre_polynomial`. -/
def legendre_fun (n : ℤ) : ℚ → ℚ := fun x => legendre_polynomial x n

/-- Grid point `i` of `np.linspace(-1, 1, k * n + 1)`
(gaussian_quadratures.py line 49). -/
def grid_pt (n k i : ℕ) : ℚ := -1 + 2 * (i : ℚ) / ((k : ℚ) * (n : ℚ))

/-- The sample grid `np.linspace(-1, 1, k * n + 1)`. -/
def grid (n k : ℕ) : List ℚ := (List.range (k * n + 1)).map (grid_pt n k)

/-- The adjacent pairs `zip(bounds[:-1], bounds[1:])` of a sample list. -/
def adjPairs : List ℚ → List (ℚ × ℚ)
  | [] => []
  | [_] => []
  | a :: b :: rest => (a, b) :: adjPairs (b :: rest)

/-- The bracketing pairs selected by `mask = values[:-1] * values[1:] < 0`
(gaussian_quadratures.py lines 51-53). -/
def sign_change_pairs (p : ℚ → ℚ) (l : List ℚ) : List (ℚ × ℚ) :=
  (adjPairs l).filter (fun q => decide (p q.1 * p q.2 < 0))

/-- The `while True` loop of `find_bisection_bounds`
(gaussian_quadratures.py lines 47-55): sample on `k * n + 1` points,
return the sign-change pairs when there are exactly `n` of them,
otherwise retry with `k + 1`. -/
def find_bounds_loop (p : ℚ → ℚ) (n : ℕ) : ℕ → ℕ → Option (List (ℚ × ℚ))
  | 0, _ => none
  | fuel + 1, k =>
    let sel := sign_change_pairs p (grid n k)
    if sel.length = n then some sel else find_bounds_loop p n fuel (k + 1)

/-- `find_bisection_bounds` (gaussian_quadratures.py lines 35-55),
starting at `k = 1`. -/
def find_bisection_bounds (p : ℚ → ℚ) (n : ℕ) (fuel : ℕ) : Option (List (ℚ × ℚ)) :=
  find_bounds_loop p n fuel 1

/-- One root computation of `integrate_legendre`
(gaussian_quadratures.py lines 73-81): `hybrid_secant_bisection` on one
bracket with the default tolerance `_EPS`. -/
def hybrid_root (fuel : ℕ) (p : ℚ → ℚ) (bd : ℚ × ℚ) : Option ℚ :=
  match hybrid_secant_bisection fuel bd.1 bd.2 p eps0 with
  | .ok r => r
  | .error _ => none

/-- The root list comprehension of `integrate_legendre`
(gaussian_quadratures.py lines 73-81), one root per bracket. -/
def roots_of (fuel : ℕ) (p : ℚ → ℚ) : List (ℚ × ℚ) → Option (List ℚ)
  | [] => some []
  | bd :: rest =>
    match hybrid_root fuel p bd, roots_of fuel p rest with
    | some r, some rs => some (r :: rs)
    | _, _ => none

/-- The integration weight `2.0 * (1.0 - root ** 2) /
((n * legendre_polynomial(root, n - 1)) ** 2)`
(gaussian_quadratures.py line 85). -/
def legendre_weight (n : ℕ) (r : ℚ) : ℚ :=
  2 * (1 - r ^ 2) / (((n : ℚ) * legendre_polynomial r ((n : ℤ) - 1)) ^ 2)

/-- The abscissa map `0.5 * ((b - a) * root + a + b)`
(gaussian_quadratures.py line 90). -/
def legendre_node (a b r : ℚ) : ℚ := 1/2 * ((b - a) * r + a + b)

/-- `integrate_legendre` (gaussian_quadratures.py lines 58-91). -/
def integrate_legendre (fuel : ℕ) (f : ℚ → ℚ) (n : ℕ) (a b : ℚ) : Option ℚ :=
  match find_bisection_bounds (legendre_fun n) n fuel with
  | none => none
  | some bounds =>
    match roots_of fuel (legendre_fun n) bounds with
    | none => none
    | some roots =>
      let weights := roots.map (legendre_weight n)
      let func_values := roots.map (fun r => f (legendre_node a b r))
      some (1/2 * (b - a) * (List.zipWith (fun w v => w * v) weights func_values).sum)

/-! ### histograms.py -/

/-- `binning_lin` (histograms.py lines 11-50).  `int(...)` truncates toward
zero; its argument `(x_max - x_min) / bin_width` is nonnegative after the
two checks, so truncation coincides with `Int.floor`.  `bins[-1]` is
`getLastD _ 0` (the list `range (num_bins + 1)` is never empty), and
`np.append(bins[:-2], (bins[-1],))` is `dropLast.dropLast ++ [x_max]`. -/
def binning_lin (x_min x_max bin_width : ℚ) (fuse_last_bin : Bool) :
    Except String (List ℚ) :=
  if x_max < x_min then .error "x_max must be larger than x_min."
  else if bin_width ≤ 0 then .error "bin_width must be positive."
  else
    let num_bins := (Int.floor ((x_max - x_min) / bin_width)).toNat
    let bins := (List.range (num_bins + 1)).map (fun i => (i : ℚ) * bin_width + x_min)
    if bins.getLastD 0 < x_max then
      let bins2 := bins ++ [x_max]
      if fuse_last_bin ∧ bins2.length > 2 then
        .ok (bins2.dropLast.dropLast ++ [x_max])
      else .ok bins2
    else .ok bins

/-- The entry validation of `binning_log` (histograms.py lines 89-101).
The body of `binning_log` computes its edges through `np.log`, which has no
exact rational model, so only the eager entry checks are embedded; `none`
means no check fired and control reached the body. -/
def binning_log_check (x_min x_max bin_width bin_factor : ℚ) : Option String :=
  if x_min ≤ 0 then some "x_min must be positive."
  else if x_max < x_min then some "x_max must be larger than x_min."
  else if bin_width ≤ 0 then some "bin_width must be positive."
  else if bin_factor ≤ 1 then some "bin_factor must be larger than 1."
  else none

/-! ### Small-step characterization of the loops -/

/-- `bisection` reaches its loop whenever the bracket validation passes. -/
theorem bisection_entry (fuel : ℕ) (x_left x_right : ℚ) (f : ℚ → ℚ) (eps fl fr : ℚ)
    (h1 : f x_left = fl) (h2 : f x_right = fr)
    (h3 : ¬ fl = 0) (h4 : ¬ fr = 0) (h5 : ¬ fl * fr > 0) :
    bisection fuel x_left x_right f eps =
      .ok (bisection_loop f eps fuel x_left x_right fl fr) := by
  simp only [bisection, h1, h2]
  rw [if_neg h3, if_neg h4, if_neg h5]

/-- `hybrid_secant_bisection` reaches its loop whenever the bracket
validation passes. -/
theorem hybrid_entry (fuel : ℕ) (x_left x_right : ℚ) (f : ℚ → ℚ) (eps fl fr : ℚ)
    (h1 : f x_left = fl) (h2 : f x_right = fr)
    (h3 : ¬ fl = 0) (h4 : ¬ fr = 0) (h5 : ¬ fl * fr > 0) :
    hybrid_secant_bisection fuel x_left x_right f eps =
      .ok (hybrid_loop f eps fuel
        { xl := x_left, xr := x_right, fl := fl, fr := fr,
          x0 := x_left, x1 := x_right, f0 := fl, f1 := fr }) := by
  simp only [hybrid_secant_bisection, h1, h2]
  rw [if_neg h3, if_neg h4, if_neg h5]

/-- The secant-bisection loop stops and returns the midpoint of the last
two secant iterates once their distance is within tolerance. -/
theorem hybrid_loop_stop (f : ℚ → ℚ) (eps : ℚ) (fuel : ℕ) (s : HState)
    (h : |s.x0 - s.x1| ≤ eps) :
    hybrid_loop f eps (fuel + 1) s = some (1/2 * (s.x0 + s.x1)) := by
  rw [hybrid_loop, if_pos h]

/-- One secant-bisection iteration in which the left bound is replaced. -/
theorem hybrid_loop_left (f : ℚ → ℚ) (eps : ℚ) (fuel : ℕ) (s : HState) (x2 f2 : ℚ)
    (h1 : ¬ |s.x0 - s.x1| ≤ eps) (h2 : hybrid_candidate s = x2) (h3 : f x2 = f2)
    (h4 : s.fl * f2 > 0) :
    hybrid_loop f eps (fuel + 1) s =
      hybrid_loop f eps fuel
        { xl := x2, xr := s.xr, fl := f2, fr := s.fr,
          x0 := s.x1, x1 := x2, f0 := s.f1, f1 := f2 } := by
  rw [hybrid_loop, if_neg h1]
  simp only [h2, h3]
  rw [if_pos h4]

/-- One secant-bisection iteration in which the right bound is replaced. -/
theorem hybrid_loop_right (f : ℚ → ℚ) (eps : ℚ) (fuel : ℕ) (s : HState) (x2 f2 : ℚ)
    (h1 : ¬ |s.x0 - s.x1| ≤ eps) (h2 : hybrid_candidate s = x2) (h3 : f x2 = f2)
    (h4 : ¬ s.fl * f2 > 0) (h5 : s.fr * f2 > 0) :
    hybrid_loop f eps (fuel + 1) s =
      hybrid_loop f eps fuel
        { xl := s.xl, xr := x2, fl := s.fl, fr := f2,
          x0 := s.x1, x1 := x2, f0 := s.f1, f1 := f2 } := by
  rw [hybrid_loop, if_neg h1]
  simp only [h2, h3]
  rw [if_neg h4, if_pos h5]

/-- The secant-bisection loop breaks out early when the new value has
nonpositive sign-product with both bounds, returning the midpoint of the
(updated) last two secant iterates. -/
theorem hybrid_loop_break (f : ℚ → ℚ) (eps : ℚ) (fuel : ℕ) (s : HState) (x2 f2 : ℚ)
    (h1 : ¬ |s.x0 - s.x1| ≤ eps) (h2 : hybrid_candidate s = x2) (h3 : f x2 = f2)
    (h4 : ¬ s.fl * f2 > 0) (h5 : ¬ s.fr * f2 > 0) :
    hybrid_loop f eps (fuel + 1) s = some (1/2 * (s.x1 + x2)) := by
  rw [hybrid_loop, if_neg h1]
  simp only [h2, h3]
  rw [if_neg h4, if_neg h5]

/-! ### Concrete evaluation of the order-2 Gauss-Legendre quadrature -/

/-- The root computed for the bracket `(-1, 0)` of `P_2`. -/
def rootNeg : ℚ := -2185153408467161/3784796725793740

/-- The root computed for the bracket `(0, 1)` of `P_2`. -/
def rootPos : ℚ := 3784796725797431/6555460225407876

/-- Full run of the hybrid root finder on the bracket `(-1, 0)` of `P_2`. -/
theorem hybrid_eval_neg :
    hybrid_secant_bisection 10 (-1) 0 (legendre_fun 2) eps0 = .ok (some rootNeg) := by
  rw [hybrid_entry 10 (-1) 0 (legendre_fun 2) eps0 1 (-1/2)
    (by norm_num [legendre_fun, legendre_polynomial, legendre_loop])
    (by norm_num [legendre_fun, legendre_polynomial, legendre_loop])
    (by norm_num) (by norm_num) (by norm_num)]
  congr 1
  calc hybrid_loop (legendre_fun 2) eps0 10 ⟨-1, 0, 1, -1/2, -1, 0, 1, -1/2⟩
    _ = hybrid_loop (legendre_fun 2) eps0 9 ⟨-1, -1/3, 1, -1/3, 0, -1/3, -1/2, -1/3⟩ :=
      hybrid_loop_right _ _ 9 _ (-1/3) (-1/3) (by norm_num [eps0, abs_le])
        (by norm_num [hybrid_candidate]) (by norm_num [legendre_fun, legendre_polynomial, legendre_loop]) (by norm_num) (by norm_num)
    _ = hybrid_loop (legendre_fun 2) eps0 8 ⟨-1, -1/3, 1, -1/3, -1/3, -1, -1/3, 1⟩ :=
      hybrid_loop_left _ _ 8 _ (-1) (1) (by norm_num [eps0, abs_le])
        (by norm_num [hybrid_candidate]) (by norm_num [legendre_fun, legendre_polynomial, legendre_loop]) (by norm_num)
    _ = hybrid_loop (legendre_fun 2) eps0 7 ⟨-1, -1/2, 1, -1/8, -1, -1/2, 1, -1/8⟩ :=
      hybrid_loop_right _ _ 7 _ (-1/2) (-1/8) (by norm_num [eps0, abs_le])
        (by norm_num [hybrid_candidate]) (by norm_num [legendre_fun, legendre_polynomial, legendre_loop]) (by norm_num) (by norm_num)
    _ = hybrid_loop (legendre_fun 2) eps0 6 ⟨-1, -5/9, 1, -1/27, -1/2, -5/9, -1/8, -1/27⟩ :=
      hybrid_loop_right _ _ 6 _ (-5/9) (-1/27) (by norm_num [eps0, abs_le])
        (by norm_num [hybrid_candidate]) (by norm_num [legendre_fun, legendre_polynomial, legendre_loop]) (by norm_num) (by norm_num)
    _ = hybrid_loop (legendre_fun 2) eps0 5 ⟨-11/19, -5/9, 1/361, -1/27, -5/9, -11/19, -1/27, 1/361⟩ :=
      hybrid_loop_left _ _ 5 _ (-11/19) (1/361) (by norm_num [eps0, abs_le])
        (by norm_num [hybrid_candidate]) (by norm_num [legendre_fun, legendre_polynomial, legendre_loop]) (by norm_num)
    _ = hybrid_loop (legendre_fun 2) eps0 4 ⟨-11/19, -56/97, 1/361, -1/18818, -11/19, -56/97, 1/361, -1/18818⟩ :=
      hybrid_loop_right _ _ 4 _ (-56/97) (-1/18818) (by norm_num [eps0, abs_le])
        (by norm_num [hybrid_candidate]) (by norm_num [legendre_fun, legendre_polynomial, legendre_loop]) (by norm_num) (by norm_num)
    _ = hybrid_loop (legendre_fun 2) eps0 3 ⟨-11/19, -3691/6393, 1/361, -1/13623483, -56/97, -3691/6393, -1/18818, -1/13623483⟩ :=
      hybrid_loop_right _ _ 3 _ (-3691/6393) (-1/13623483) (by norm_num [eps0, abs_le])
        (by norm_num [hybrid_candidate]) (by norm_num [legendre_fun, legendre_polynomial, legendre_loop]) (by norm_num) (by norm_num)
    _ = hybrid_loop (legendre_fun 2) eps0 2 ⟨-413403/716035, -3691/6393, 1/512706121225, -1/13623483, -3691/6393, -413403/716035, -1/13623483, 1/512706121225⟩ :=
      hybrid_loop_left _ _ 2 _ (-413403/716035) (1/512706121225) (by norm_num [eps0, abs_le])
        (by norm_num [hybrid_candidate]) (by norm_num [legendre_fun, legendre_polynomial, legendre_loop]) (by norm_num)
    _ = hybrid_loop (legendre_fun 2) eps0 1 ⟨-413403/716035, -1525870529/2642885282, 1/512706121225, -1/13969685227624439048, -413403/716035, -1525870529/2642885282, 1/512706121225, -1/13969685227624439048⟩ :=
      hybrid_loop_right _ _ 1 _ (-1525870529/2642885282) (-1/13969685227624439048) (by norm_num [eps0, abs_le])
        (by norm_num [hybrid_candidate]) (by norm_num [legendre_fun, legendre_polynomial, legendre_loop]) (by norm_num) (by norm_num)
    _ = some rootNeg := by
      rw [hybrid_loop_stop _ _ 0 _ (by norm_num [eps0, abs_le])]; norm_num [rootNeg]

/-- Full run of the hybrid root finder on the bracket `(0, 1)` of `P_2`. -/
theorem hybrid_eval_pos :
    hybrid_secant_bisection 10 0 1 (legendre_fun 2) eps0 = .ok (some rootPos) := by
  rw [hybrid_entry 10 0 1 (legendre_fun 2) eps0 (-1/2) 1
    (by norm_num [legendre_fun, legendre_polynomial, legendre_loop])
    (by norm_num [legendre_fun, legendre_polynomial, legendre_loop])
    (by norm_num) (by norm_num) (by norm_num)]
  congr 1
  calc hybrid_loop (legendre_fun 2) eps0 10 ⟨0, 1, -1/2, 1, 0, 1, -1/2, 1⟩
    _ = hybrid_loop (legendre_fun 2) eps0 9 ⟨1/3, 1, -1/3, 1, 1, 1/3, 1, -1/3⟩ :=
      hybrid_loop_left _ _ 9 _ (1/3) (-1/3) (by norm_num [eps0, abs_le])
        (by norm_num [hybrid_candidate]) (by norm_num [legendre_fun, legendre_polynomial, legendre_loop]) (by norm_num)
    _ = hybrid_loop (legendre_fun 2) eps0 8 ⟨1/2, 1, -1/8, 1, 1/3, 1/2, -1/3, -1/8⟩ :=
      hybrid_loop_left _ _ 8 _ (1/2) (-1/8) (by norm_num [eps0, abs_le])
        (by norm_num [hybrid_candidate]) (by norm_num [legendre_fun, legendre_polynomial, legendre_loop]) (by norm_num)
    _ = hybrid_loop (legendre_fun 2) eps0 7 ⟨1/2, 3/5, -1/8, 1/25, 1/2, 3/5, -1/8, 1/25⟩ :=
      hybrid_loop_right _ _ 7 _ (3/5) (1/25) (by norm_num [eps0, abs_le])
        (by norm_num [hybrid_candidate]) (by norm_num [legendre_fun, legendre_polynomial, legendre_loop]) (by norm_num) (by norm_num)
    _ = hybrid_loop (legendre_fun 2) eps0 6 ⟨19/33, 3/5, -1/363, 1/25, 3/5, 19/33, 1/25, -1/363⟩ :=
      hybrid_loop_left _ _ 6 _ (19/33) (-1/363) (by norm_num [eps0, abs_le])
        (by norm_num [hybrid_candidate]) (by norm_num [legendre_fun, legendre_polynomial, legendre_loop]) (by norm_num)
    _ = hybrid_loop (legendre_fun 2) eps0 5 ⟨56/97, 3/5, -1/18818, 1/25, 19/33, 56/97, -1/363, -1/18818⟩ :=
      hybrid_loop_left _ _ 5 _ (56/97) (-1/18818) (by norm_num [eps0, abs_le])
        (by norm_num [hybrid_candidate]) (by norm_num [legendre_fun, legendre_polynomial, legendre_loop]) (by norm_num)
    _ = hybrid_loop (legendre_fun 2) eps0 4 ⟨56/97, 2131/3691, -1/18818, 1/13623481, 56/97, 2131/3691, -1/18818, 1/13623481⟩ :=
      hybrid_loop_right _ _ 4 _ (2131/3691) (1/13623481) (by norm_num [eps0, abs_le])
        (by norm_num [hybrid_candidate]) (by norm_num [legendre_fun, legendre_polynomial, legendre_loop]) (by norm_num) (by norm_num)
    _ = hybrid_loop (legendre_fun 2) eps0 3 ⟨716035/1240209, 2131/3691, -1/512706121227, 1/13623481, 2131/3691, 716035/1240209, 1/13623481, -1/512706121227⟩ :=
      hybrid_loop_left _ _ 3 _ (716035/1240209) (-1/512706121227) (by norm_num [eps0, abs_le])
        (by norm_num [hybrid_candidate]) (by norm_num [legendre_fun, legendre_polynomial, legendre_loop]) (by norm_num)
    _ = hybrid_loop (legendre_fun 2) eps0 2 ⟨1525870529/2642885282, 2131/3691, -1/13969685227624439048, 1/13623481, 716035/1240209, 1525870529/2642885282, -1/512706121227, -1/13969685227624439048⟩ :=
      hybrid_loop_left _ _ 2 _ (1525870529/2642885282) (-1/13969685227624439048) (by norm_num [eps0, abs_le])
        (by norm_num [hybrid_candidate]) (by norm_num [legendre_fun, legendre_polynomial, legendre_loop]) (by norm_num)
    _ = some rootPos := by
      rw [hybrid_loop_stop _ _ 1 _ (by norm_num [eps0, abs_le])]; norm_num [rootPos]

/-- The bracket search for the order-2 Legendre polynomial succeeds on the
first grid (`k = 1`, three sample points). -/
theorem find_bounds_n2_eval :
    find_bisection_bounds (legendre_fun 2) 2 10 = some [(-1, 0), (0, 1)] := by
  norm_num [find_bisection_bounds, find_bounds_loop, sign_change_pairs, grid, grid_pt,
    adjPairs, legendre_fun, legendre_polynomial, legendre_loop, List.range_succ,
    List.filter, decide_eq_true_eq]

/-- The two roots used by `integrate_legendre` at order 2. -/
theorem roots_n2_eval :
    roots_of 10 (legendre_fun 2) [(-1, 0), (0, 1)] = some [rootNeg, rootPos] := by
  simp only [roots_of, hybrid_root, hybrid_eval_neg, hybrid_eval_pos]

/-- The exact rational value returned by the order-2 Gauss-Legendre
quadrature of `x ↦ x ^ 2` over `[0, 1]`. -/
def quadratureValue : ℚ :=
  4018764810772557806825094829894403032330527630502354944906879102014949343762206483774234986239628729808187 /
    12056294432297308815149304743131881912973857663881880944642564970120399619092761082929698885075930074268800

/-- Full evaluation of `integrate_legendre` at `n = 2`, `f = (· ^ 2)`,
`[a, b] = [0, 1]`. -/
theorem integrate_n2_eval :
    integrate_legendre 10 (fun x => x ^ 2) 2 0 1 = some quadratureValue := by
  simp only [integrate_legendre, Nat.cast_ofNat, find_bounds_n2_eval, roots_n2_eval]
  norm_num [legendre_weight, legendre_node, legendre_polynomial, rootNeg, rootPos,
    quadratureValue]

/-! ### Legendre polynomial identities -/

/-- At `x = 1` the recurrence keeps both carried values equal to `1`. -/
theorem legendre_loop_one (m : ℕ) : legendre_loop 1 m = (1, 1) := by
  induction m with
  | zero => rfl
  | succ m ih =>
    have h : ((m : ℚ) + 1) + 1 ≠ 0 := by positivity
    simp only [legendre_loop, ih, Prod.mk.injEq]
    refine ⟨trivial, ?_⟩
    field_simp
    ring

/-- Parity of the recurrence: negating `x` negates every other carried value. -/
theorem legendre_loop_neg (x : ℚ) (m : ℕ) :
    legendre_loop (-x) m =
      ((-1) ^ m * (legendre_loop x m).1, (-1) ^ (m + 1) * (legendre_loop x m).2) := by
  induction m with
  | zero => simp [legendre_loop]
  | succ m ih =>
    have h : ((m : ℚ) + 1) + 1 ≠ 0 := by positivity
    simp only [legendre_loop, ih, Prod.mk.injEq]
    refine ⟨trivial, ?_⟩
    field_simp
    ring

/-- `legendre_polynomial` at a nonnegative order, written over `ℕ`. -/
theorem legendre_nat (x : ℚ) (n : ℕ) :
    legendre_polynomial x (n : ℤ) = if n = 0 then 1 else (legendre_loop x (n - 1)).2 := by
  match n with
  | 0 => rfl
  | 1 => rfl
  | n + 2 =>
    have h3 : (((n + 2 : ℕ) : ℤ) - 1).toNat = n + 1 := by omega
    rw [legendre_polynomial, if_neg (by omega), if_neg (by omega), h3,
      if_neg (by omega)]
    rfl

/-- C7: for every non-negative integer `n`, `legendre_polynomial 1 n = 1`,
and for every `x`, `legendre_polynomial (-x) n = (-1) ^ n *
legendre_polynomial x n`. -/
theorem legendre_endpoint_and_parity (n : ℕ) :
    legendre_polynomial 1 (n : ℤ) = 1 ∧
      ∀ x : ℚ, legendre_polynomial (-x) (n : ℤ) =
        (-1) ^ n * legendre_polynomial x (n : ℤ) := by
  constructor
  · rw [legendre_nat]
    by_cases hn : n = 0
    · rw [if_pos hn]
    · rw [if_neg hn, legendre_loop_one]
  · intro x
    rw [legendre_nat, legendre_nat]
    by_cases hn : n = 0
    · subst hn
      norm_num
    · have hm : n - 1 + 1 = n := by omega
      rw [if_neg hn, if_neg hn, legendre_loop_neg, hm]

/-- C10: a negative order is not rejected: the general branch is taken, the
recurrence loop body never executes (`range(1, n)` is empty), and the value
`P_1(x) = x` is returned. -/
theorem legendre_negative_order (x : ℚ) (n : ℤ) (hn : n < 0) :
    legendre_polynomial x n = x := by
  have h3 : (n - 1).toNat = 0 := by omega
  rw [legendre_polynomial, if_neg (by omega), if_neg (by omega), h3]
  rfl

/-- Witness for C10 at `x = 5`, `n = -3`. -/
theorem legendre_negative_order_witness :
    (-3 : ℤ) < 0 ∧ legendre_polynomial 5 (-3) = 5 :=
  ⟨by norm_num, legendre_negative_order 5 (-3) (by norm_num)⟩

/-! ### The order-2 quadrature value -/

/-- C6 (counterexample): with `n = 2`, `f x = x ^ 2`, `[a, b] = [0, 1]`,
`integrate_legendre` returns `quadratureValue`, which is not exactly `1/3`. -/
theorem integrate_legendre_n2_not_exact :
    integrate_legendre 10 (fun x => x ^ 2) 2 0 1 = some quadratureValue ∧
      quadratureValue ≠ 1/3 :=
  ⟨integrate_n2_eval, by norm_num [quadratureValue]⟩

/-- C6 (amended): with `n = 2`, `f x = x ^ 2`, `[a, b] = [0, 1]`,
`integrate_legendre` returns a value within the root-finder tolerance
`1e-10` of `1/3` (degree-3 exactness holds only up to the accuracy of the
computed nodes), not exactly `1/3`. -/
theorem integrate_legendre_n2_approx :
    integrate_legendre 10 (fun x => x ^ 2) 2 0 1 = some quadratureValue ∧
      |quadratureValue - 1/3| ≤ 1/10 ^ 10 := by
  refine ⟨integrate_n2_eval, ?_⟩
  rw [abs_le]
  constructor <;> norm_num [quadratureValue]

/-! ### Bisection small steps -/

/-- The bisection loop stops once the bracket width is within tolerance. -/
theorem bisection_loop_stop (f : ℚ → ℚ) (eps : ℚ) (fuel : ℕ) (xl xr fl fr : ℚ)
    (h : |xr - xl| ≤ eps) :
    bisection_loop f eps (fuel + 1) xl xr fl fr = some (1/2 * (xr + xl)) := by
  rw [bisection_loop, if_pos h]

/-- One bisection iteration replacing the left bound. -/
theorem bisection_loop_left (f : ℚ → ℚ) (eps : ℚ) (fuel : ℕ) (xl xr fl fr : ℚ)
    (h1 : ¬ |xr - xl| ≤ eps) (h4 : fl * f (1/2 * (xl + xr)) > 0) :
    bisection_loop f eps (fuel + 1) xl xr fl fr =
      bisection_loop f eps fuel (1/2 * (xl + xr)) xr (f (1/2 * (xl + xr))) fr := by
  simp only [bisection_loop]
  rw [if_neg h1, if_pos h4]

/-- One bisection iteration replacing the right bound. -/
theorem bisection_loop_right (f : ℚ → ℚ) (eps : ℚ) (fuel : ℕ) (xl xr fl fr : ℚ)
    (h1 : ¬ |xr - xl| ≤ eps) (h4 : ¬ fl * f (1/2 * (xl + xr)) > 0)
    (h5 : fr * f (1/2 * (xl + xr)) > 0) :
    bisection_loop f eps (fuel + 1) xl xr fl fr =
      bisection_loop f eps fuel xl (1/2 * (xl + xr)) fl (f (1/2 * (xl + xr))) := by
  simp only [bisection_loop]
  rw [if_neg h1, if_neg h4, if_pos h5]

/-- The bisection loop breaks out (returning the current midpoint) when the
midpoint value has nonpositive sign-product with both bounds. -/
theorem bisection_loop_break (f : ℚ → ℚ) (eps : ℚ) (fuel : ℕ) (xl xr fl fr : ℚ)
    (h1 : ¬ |xr - xl| ≤ eps) (h4 : ¬ fl * f (1/2 * (xl + xr)) > 0)
    (h5 : ¬ fr * f (1/2 * (xl + xr)) > 0) :
    bisection_loop f eps (fuel + 1) xl xr fl fr = some (1/2 * (xr + xl)) := by
  simp only [bisection_loop]
  rw [if_neg h1, if_neg h4, if_neg h5]

/-! ### Claim theorems: validation and the two loops -/

/-- C3: both root finders fail with the invalid-bracket `ValueError` if and
only if an endpoint value is zero or the two endpoint values share a
(nonzero) sign; the validation outcome is decided at entry, independently
of the fuel driving the loop (so no partial iteration is involved), and a
bracket with nonzero endpoint values of opposite sign never fails
validation. -/
theorem bracket_validation_spec (fuel : ℕ) (x_left x_right : ℚ) (f : ℚ → ℚ) (eps : ℚ) :
    ((∃ e, bisection fuel x_left x_right f eps = .error e) ↔
      (f x_left = 0 ∨ f x_right = 0 ∨
        ((0 < f x_left ∧ 0 < f x_right) ∨ (f x_left < 0 ∧ f x_right < 0)))) ∧
    ((∃ e, hybrid_secant_bisection fuel x_left x_right f eps = .error e) ↔
      (f x_left = 0 ∨ f x_right = 0 ∨
        ((0 < f x_left ∧ 0 < f x_right) ∨ (f x_left < 0 ∧ f x_right < 0)))) ∧
    (∀ e, bisection fuel x_left x_right f eps = .error e ↔
      bisection 0 x_left x_right f eps = .error e) ∧
    (∀ e, hybrid_secant_bisection fuel x_left x_right f eps = .error e ↔
      hybrid_secant_bisection 0 x_left x_right f eps = .error e) ∧
    (f x_left ≠ 0 → f x_right ≠ 0 → f x_left * f x_right < 0 →
      (∀ e, bisection fuel x_left x_right f eps ≠ .error e) ∧
      (∀ e, hybrid_secant_bisection fuel x_left x_right f eps ≠ .error e)) := by
  simp only [bisection, hybrid_secant_bisection]
  split_ifs with h1 h2 h3
  · simp [h1]
  · simp [h2]
  · have hs := mul_pos_iff.mp h3
    refine ⟨iff_of_true ⟨_, rfl⟩ (Or.inr (Or.inr hs)),
      iff_of_true ⟨_, rfl⟩ (Or.inr (Or.inr hs)),
      fun e => Iff.rfl, fun e => Iff.rfl, ?_⟩
    intro _ _ hlt
    exact absurd h3 (by linarith)
  · refine ⟨?_, ?_,
      fun e => iff_of_false (by simp) (by simp),
      fun e => iff_of_false (by simp) (by simp),
      fun _ _ _ => ⟨by simp, by simp⟩⟩ <;>
    · constructor
      · rintro ⟨e, he⟩
        exact absurd he (by simp)
      · rintro (h | h | h)
        · exact absurd h h1
        · exact absurd h h2
        · rcases h with hss | hss
          · exact absurd (mul_pos hss.1 hss.2) h3
          · exact absurd (mul_pos_of_neg_of_neg hss.1 hss.2) h3

/-- Witness for C3 with `f = id` on the valid bracket `(-1, 1)`. -/
theorem bracket_validation_spec_witness :
    (∀ e, bisection 3 (-1) 1 (fun x : ℚ => x) 1 ≠ .error e) ∧
    (∀ e, hybrid_secant_bisection 3 (-1) 1 (fun x : ℚ => x) 1 ≠ .error e) :=
  (bracket_validation_spec 3 (-1) 1 (fun x : ℚ => x) 1).2.2.2.2
    (by norm_num) (by norm_num) (by norm_num)

/-- C2: the bisection loop stops when the bracket width is within
tolerance, returning the bracket midpoint; an exact midpoint root stops it
immediately with that midpoint as the returned value; otherwise (for a
bracket with opposite-sign values and a nonzero midpoint value) exactly the
endpoint whose value shares the sign of the midpoint value is replaced by
the midpoint; and on a valid bracket the entry validation passes and
`bisection` runs this loop from the given bounds. -/
theorem bisection_spec (f : ℚ → ℚ) (eps : ℚ) (fuel : ℕ) (x_left x_right xl xr fl fr : ℚ) :
    (|xr - xl| ≤ eps →
      bisection_loop f eps (fuel + 1) xl xr fl fr = some (1/2 * (xr + xl))) ∧
    (¬ |xr - xl| ≤ eps → f (1/2 * (xl + xr)) = 0 →
      bisection_loop f eps (fuel + 1) xl xr fl fr = some (1/2 * (xl + xr))) ∧
    (¬ |xr - xl| ≤ eps → fl * fr < 0 → f (1/2 * (xl + xr)) ≠ 0 →
      ((fl * f (1/2 * (xl + xr)) > 0 ∧ ¬ fr * f (1/2 * (xl + xr)) > 0 ∧
         bisection_loop f eps (fuel + 1) xl xr fl fr =
           bisection_loop f eps fuel (1/2 * (xl + xr)) xr (f (1/2 * (xl + xr))) fr) ∨
       (fr * f (1/2 * (xl + xr)) > 0 ∧ ¬ fl * f (1/2 * (xl + xr)) > 0 ∧
         bisection_loop f eps (fuel + 1) xl xr fl fr =
           bisection_loop f eps fuel xl (1/2 * (xl + xr)) fl (f (1/2 * (xl + xr)))))) ∧
    (f x_left ≠ 0 → f x_right ≠ 0 → f x_left * f x_right < 0 →
      bisection fuel x_left x_right f eps =
        .ok (bisection_loop f eps fuel x_left x_right (f x_left) (f x_right))) := by
  refine ⟨fun h => bisection_loop_stop f eps fuel xl xr fl fr h, ?_, ?_, ?_⟩
  · intro h1 h2
    rw [bisection_loop_break f eps fuel xl xr fl fr h1 (by rw [h2]; simp)
      (by rw [h2]; simp)]
    congr 1
    ring
  · intro h1 hlt h2
    rcases mul_neg_iff.mp hlt with ⟨hfl, hfr⟩ | ⟨hfl, hfr⟩ <;>
      rcases h2.lt_or_lt with hf2 | hf2
    · have hr : fr * f (1/2 * (xl + xr)) > 0 := mul_pos_of_neg_of_neg hfr hf2
      have hl : ¬ fl * f (1/2 * (xl + xr)) > 0 :=
        not_lt.mpr (mul_nonpos_iff.mpr (Or.inl ⟨hfl.le, hf2.le⟩))
      exact Or.inr ⟨hr, hl, bisection_loop_right f eps fuel xl xr fl fr h1 hl hr⟩
    · have hl : fl * f (1/2 * (xl + xr)) > 0 := mul_pos hfl hf2
      have hr : ¬ fr * f (1/2 * (xl + xr)) > 0 :=
        not_lt.mpr (mul_nonpos_iff.mpr (Or.inr ⟨hfr.le, hf2.le⟩))
      exact Or.inl ⟨hl, hr, bisection_loop_left f eps fuel xl xr fl fr h1 hl⟩
    · have hl : fl * f (1/2 * (xl + xr)) > 0 := mul_pos_of_neg_of_neg hfl hf2
      have hr : ¬ fr * f (1/2 * (xl + xr)) > 0 :=
        not_lt.mpr (mul_nonpos_iff.mpr (Or.inl ⟨hfr.le, hf2.le⟩))
      exact Or.inl ⟨hl, hr, bisection_loop_left f eps fuel xl xr fl fr h1 hl⟩
    · have hr : fr * f (1/2 * (xl + xr)) > 0 := mul_pos hfr hf2
      have hl : ¬ fl * f (1/2 * (xl + xr)) > 0 :=
        not_lt.mpr (mul_nonpos_iff.mpr (Or.inr ⟨hfl.le, hf2.le⟩))
      exact Or.inr ⟨hr, hl, bisection_loop_right f eps fuel xl xr fl fr h1 hl hr⟩
  · intro hne1 hne2 hlt
    exact bisection_entry fuel x_left x_right f eps (f x_left) (f x_right) rfl rfl
      hne1 hne2 (by linarith)

/-- Witness for C2: the loop stops at once on a bracket of width `1/2`
with tolerance `1`. -/
theorem bisection_spec_witness :
    bisection_loop (fun x : ℚ => x) 1 1 0 (1/2) 1 1 = some (1/2 * (1/2 + 0)) :=
  (bisection_spec (fun x : ℚ => x) 1 0 0 0 0 (1/2) 1 1).1 (by norm_num [abs_le])

/-- C1: in `hybrid_secant_bisection` the candidate iterate is the secant
extrapolation `x1 - f1 * (x1 - x0) / (f1 - f0)` whenever that expression
has a nonzero denominator and its value lies inside the current bisection
bracket `[xl, xr]`, and is the bracket midpoint `0.5 * (xl + xr)`
otherwise; the loop stops when the distance between the last two secant
iterates is within `eps` (or when the candidate value has nonpositive
sign-product with both bracket values), returning the midpoint
`0.5 * (x0 + x1)` of the final two secant iterates; and on a valid bracket
the entry validation passes and the loop starts from the given bounds. -/
theorem hybrid_spec (f : ℚ → ℚ) (eps : ℚ) (fuel : ℕ) (s : HState)
    (x_left x_right : ℚ) :
    (s.f1 - s.f0 ≠ 0 →
      s.xl ≤ s.x1 - s.f1 * (s.x1 - s.x0) / (s.f1 - s.f0) →
      s.x1 - s.f1 * (s.x1 - s.x0) / (s.f1 - s.f0) ≤ s.xr →
      hybrid_candidate s = s.x1 - s.f1 * (s.x1 - s.x0) / (s.f1 - s.f0)) ∧
    (s.f1 - s.f0 = 0 ∨ s.x1 - s.f1 * (s.x1 - s.x0) / (s.f1 - s.f0) < s.xl ∨
        s.xr < s.x1 - s.f1 * (s.x1 - s.x0) / (s.f1 - s.f0) →
      hybrid_candidate s = 1/2 * (s.xl + s.xr)) ∧
    (|s.x0 - s.x1| ≤ eps →
      hybrid_loop f eps (fuel + 1) s = some (1/2 * (s.x0 + s.x1))) ∧
    (¬ |s.x0 - s.x1| ≤ eps →
      s.fl * f (hybrid_candidate s) ≤ 0 → s.fr * f (hybrid_candidate s) ≤ 0 →
      hybrid_loop f eps (fuel + 1) s = some (1/2 * (s.x1 + hybrid_candidate s))) ∧
    (f x_left ≠ 0 → f x_right ≠ 0 → f x_left * f x_right < 0 →
      hybrid_secant_bisection fuel x_left x_right f eps =
        .ok (hybrid_loop f eps fuel
          { xl := x_left, xr := x_right, fl := f x_left, fr := f x_right,
            x0 := x_left, x1 := x_right, f0 := f x_left, f1 := f x_right })) := by
  refine ⟨?_, ?_, fun h => hybrid_loop_stop f eps fuel s h, ?_, ?_⟩
  · intro hden hl hr
    simp only [hybrid_candidate]
    rw [if_neg hden, if_neg]
    push_neg
    exact ⟨hl, hr⟩
  · intro hcase
    simp only [hybrid_candidate]
    by_cases hden : s.f1 - s.f0 = 0
    · rw [if_pos hden]
    · rw [if_neg hden, if_pos]
      rcases hcase with h | h | h
      · exact absurd h hden
      · exact Or.inl h
      · exact Or.inr h
  · intro h1 h4 h5
    exact hybrid_loop_break f eps fuel s (hybrid_candidate s) (f (hybrid_candidate s))
      h1 rfl rfl (not_lt.mpr h4) (not_lt.mpr h5)
  · intro hne1 hne2 hlt
    exact hybrid_entry fuel x_left x_right f eps (f x_left) (f x_right) rfl rfl
      hne1 hne2 (by linarith)

/-- Witness for C1: with the two secant iterates already equal, the loop
stops at once and returns their midpoint. -/
theorem hybrid_spec_witness :
    hybrid_loop (fun x : ℚ => x) 1 1 ⟨0, 1, -1, 1, 1, 1, -1, 1⟩ =
      some (1/2 * (1 + 1)) :=
  (hybrid_spec (fun x : ℚ => x) 1 0 ⟨0, 1, -1, 1, 1, 1, -1, 1⟩ 0 0).2.2.1
    (by norm_num)

/-! ### The bracket-confinement invariant -/

/-- Any value returned by the bisection loop lies in every interval that
contains the current bracket. -/
theorem bisection_loop_mem (f : ℚ → ℚ) (eps lo hi : ℚ) :
    ∀ (fuel : ℕ) (xl xr fl fr x : ℚ), lo ≤ xl → xl ≤ xr → xr ≤ hi →
      bisection_loop f eps fuel xl xr fl fr = some x → lo ≤ x ∧ x ≤ hi := by
  intro fuel
  induction fuel with
  | zero =>
    intro xl xr fl fr x _ _ _ h
    exact absurd h (by simp [bisection_loop])
  | succ fuel ih =>
    intro xl xr fl fr x h1 h2 h3 h
    simp only [bisection_loop] at h
    split_ifs at h with hstop hb1 hb2
    · obtain rfl := Option.some.inj h
      constructor <;> linarith
    · exact ih _ _ _ _ x (by linarith) (by linarith) h3 h
    · exact ih _ _ _ _ x h1 (by linarith) (by linarith) h
    · obtain rfl := Option.some.inj h
      constructor <;> linarith

/-- The candidate of the hybrid loop always lies inside the current
bisection bracket. -/
theorem hybrid_candidate_mem (s : HState) (h : s.xl ≤ s.xr) :
    s.xl ≤ hybrid_candidate s ∧ hybrid_candidate s ≤ s.xr := by
  simp only [hybrid_candidate]
  split_ifs with h1 h2
  · constructor <;> linarith
  · constructor <;> linarith
  · push_neg at h2
    exact h2

/-- Any value returned by the secant-bisection loop lies in every interval
containing the bracket and both secant iterates. -/
theorem hybrid_loop_mem (f : ℚ → ℚ) (eps lo hi : ℚ) :
    ∀ (fuel : ℕ) (xl xr fl fr x0 x1 f0 f1 x : ℚ),
      lo ≤ xl → xl ≤ xr → xr ≤ hi → lo ≤ x0 → x0 ≤ hi → lo ≤ x1 → x1 ≤ hi →
      hybrid_loop f eps fuel ⟨xl, xr, fl, fr, x0, x1, f0, f1⟩ = some x →
      lo ≤ x ∧ x ≤ hi := by
  intro fuel
  induction fuel with
  | zero =>
    intro xl xr fl fr x0 x1 f0 f1 x _ _ _ _ _ _ _ h
    exact absurd h (by simp [hybrid_loop])
  | succ fuel ih =>
    intro xl xr fl fr x0 x1 f0 f1 x h1 h2 h3 h4 h5 h6 h7 h
    have hc := hybrid_candidate_mem ⟨xl, xr, fl, fr, x0, x1, f0, f1⟩ h2
    simp only at hc
    simp only [hybrid_loop] at h
    split_ifs at h with hstop hb1 hb2
    · obtain rfl := Option.some.inj h
      constructor <;> linarith
    · exact ih _ _ _ _ _ _ _ _ x (by linarith [hc.1]) hc.2 h3 h6 h7
        (by linarith [hc.1]) (by linarith [hc.2]) h
    · exact ih _ _ _ _ _ _ _ _ x h1 hc.1 (by linarith [hc.2]) h6 h7
        (by linarith [hc.1]) (by linarith [hc.2]) h
    · obtain rfl := Option.some.inj h
      constructor <;> linarith [hc.1, hc.2]

/-- C9: on a valid bracket (`x_left < x_right`, values of opposite nonzero
sign, `eps > 0`) any value returned by `bisection` or
`hybrid_secant_bisection` lies within the closed initial interval
`[x_left, x_right]`. -/
theorem root_finders_stay_in_bracket (f : ℚ → ℚ) (eps : ℚ) (fuel : ℕ)
    (x_left x_right x y : ℚ) (hlt : x_left < x_right) (heps : 0 < eps)
    (hsign : f x_left * f x_right < 0) :
    (bisection fuel x_left x_right f eps = .ok (some x) →
      x_left ≤ x ∧ x ≤ x_right) ∧
    (hybrid_secant_bisection fuel x_left x_right f eps = .ok (some y) →
      x_left ≤ y ∧ y ≤ x_right) := by
  have hne1 : ¬ f x_left = 0 := by
    intro h
    rw [h] at hsign
    simp at hsign
  have hne2 : ¬ f x_right = 0 := by
    intro h
    rw [h] at hsign
    simp at hsign
  have hgt : ¬ f x_left * f x_right > 0 := by linarith
  constructor
  · intro h
    rw [bisection_entry fuel x_left x_right f eps (f x_left) (f x_right) rfl rfl
      hne1 hne2 hgt] at h
    exact bisection_loop_mem f eps x_left x_right fuel x_left x_right (f x_left)
      (f x_right) x le_rfl hlt.le le_rfl (Except.ok.inj h)
  · intro h
    rw [hybrid_entry fuel x_left x_right f eps (f x_left) (f x_right) rfl rfl
      hne1 hne2 hgt] at h
    exact hybrid_loop_mem f eps x_left x_right fuel x_left x_right (f x_left)
      (f x_right) x_left x_right (f x_left) (f x_right) y le_rfl hlt.le le_rfl
      le_rfl hlt.le hlt.le le_rfl (Except.ok.inj h)

/-- Witness for C9: `f = id` on `(-1, 2)` with tolerance `1`; `bisection`
returns `1/8` and the hybrid method returns `1`, both inside `[-1, 2]`. -/
theorem root_finders_stay_in_bracket_witness :
    ((-1 : ℚ) ≤ 1/8 ∧ (1/8 : ℚ) ≤ 2) ∧ ((-1 : ℚ) ≤ 1 ∧ (1 : ℚ) ≤ 2) :=
  ⟨(root_finders_stay_in_bracket (fun x => x) 1 5 (-1) 2 (1/8) 1 (by norm_num)
      (by norm_num) (by norm_num)).1
      (by norm_num [bisection, bisection_loop, abs_le]),
   (root_finders_stay_in_bracket (fun x => x) 1 5 (-1) 2 (1/8) 1 (by norm_num)
      (by norm_num) (by norm_num)).2
      (by norm_num [hybrid_secant_bisection, hybrid_loop, hybrid_candidate, abs_le])⟩

/-! ### Properties of the bracket locator -/

/-- Each pair produced by `adjPairs` consists of two adjacent entries. -/
theorem adjPairs_mem_get : ∀ (l : List ℚ) (q : ℚ × ℚ), q ∈ adjPairs l →
    ∃ i, l.get? i = some q.1 ∧ l.get? (i + 1) = some q.2 := by
  intro l
  induction l with
  | nil =>
    intro q hq
    simp [adjPairs] at hq
  | cons a t ih =>
    intro q hq
    cases t with
    | nil => simp [adjPairs] at hq
    | cons b r =>
      rw [adjPairs] at hq
      rcases List.mem_cons.mp hq with rfl | hq2
      · exact ⟨0, rfl, rfl⟩
      · obtain ⟨i, hi1, hi2⟩ := ih q hq2
        exact ⟨i + 1, by simpa using hi1, by simpa using hi2⟩

/-- Both components of an `adjPairs` pair belong to the list. -/
theorem adjPairs_comp_mem (l : List ℚ) (q : ℚ × ℚ) (hq : q ∈ adjPairs l) :
    q.1 ∈ l ∧ q.2 ∈ l := by
  obtain ⟨i, h1, h2⟩ := adjPairs_mem_get l q hq
  exact ⟨List.get?_mem h1, List.get?_mem h2⟩

/-- On a `≤`-sorted list, the pairs of `adjPairs` do not overlap: each
pair ends no later than any later pair starts. -/
theorem adjPairs_pairwise : ∀ (l : List ℚ), l.Pairwise (· ≤ ·) →
    (adjPairs l).Pairwise (fun a b : ℚ × ℚ => a.2 ≤ b.1) := by
  intro l
  induction l with
  | nil => intro _; simp [adjPairs]
  | cons a t ih =>
    intro hl
    cases t with
    | nil => simp [adjPairs]
    | cons b r =>
      rw [adjPairs, List.pairwise_cons]
      obtain ⟨_, ht⟩ := List.pairwise_cons.mp hl
      refine ⟨?_, ih ht⟩
      intro q hq
      have hmem := (adjPairs_comp_mem _ q hq).1
      obtain ⟨hb, _⟩ := List.pairwise_cons.mp ht
      rcases List.mem_cons.mp hmem with h | h
      · rw [h]
      · exact hb _ h

/-- The grid points are strictly increasing in the index. -/
theorem grid_pt_strict (n k : ℕ) (hn : 1 ≤ n) (hk : 1 ≤ k) {i j : ℕ} (hij : i < j) :
    grid_pt n k i < grid_pt n k j := by
  have h1 : (0 : ℚ) < (k : ℚ) := by exact_mod_cast hk
  have h2 : (0 : ℚ) < (n : ℚ) := by exact_mod_cast hn
  have hkn : (0 : ℚ) < (k : ℚ) * (n : ℚ) := by positivity
  have hij2 : 2 * (i : ℚ) < 2 * (j : ℚ) := by
    have : (i : ℚ) < (j : ℚ) := by exact_mod_cast hij
    linarith
  have h3 := (div_lt_div_iff_of_pos_right hkn).mpr hij2
  unfold grid_pt
  linarith

/-- The grid points lie in `[-1, 1]`. -/
theorem grid_pt_bounds (n k i : ℕ) (hn : 1 ≤ n) (hk : 1 ≤ k) (hi : i ≤ k * n) :
    -1 ≤ grid_pt n k i ∧ grid_pt n k i ≤ 1 := by
  have h1 : (0 : ℚ) < (k : ℚ) := by exact_mod_cast hk
  have h2 : (0 : ℚ) < (n : ℚ) := by exact_mod_cast hn
  have hkn : (0 : ℚ) < (k : ℚ) * (n : ℚ) := by positivity
  constructor
  · have h4 : 0 ≤ 2 * (i : ℚ) / ((k : ℚ) * (n : ℚ)) := by positivity
    unfold grid_pt
    linarith
  · have h3 : (i : ℚ) ≤ (k : ℚ) * (n : ℚ) := by exact_mod_cast hi
    have h4 : 2 * (i : ℚ) / ((k : ℚ) * (n : ℚ)) ≤ 2 := by
      rw [div_le_iff hkn]
      linarith
    unfold grid_pt
    linarith

/-- The sample grid is strictly sorted. -/
theorem grid_sorted_lt (n k : ℕ) (hn : 1 ≤ n) (hk : 1 ≤ k) :
    (grid n k).Pairwise (· < ·) := by
  unfold grid
  rw [List.pairwise_map]
  exact (List.pairwise_lt_range _).imp (fun h => grid_pt_strict n k hn hk h)

/-- Indexing into the sample grid. -/
theorem grid_get (n k i : ℕ) (h : i < k * n + 1) :
    (grid n k).get? i = some (grid_pt n k i) := by
  unfold grid
  rw [List.get?_map, List.get?_range h]
  rfl

/-- If the bracket search loop returns, it returns the sign-change pairs
of the grid for the first sampling density at which there are exactly `n`
of them. -/
theorem find_bounds_loop_some (p : ℚ → ℚ) (n : ℕ) :
    ∀ (fuel k0 : ℕ) (l : List (ℚ × ℚ)), find_bounds_loop p n fuel k0 = some l →
      ∃ k, k0 ≤ k ∧ l = sign_change_pairs p (grid n k) ∧ l.length = n ∧
        ∀ j, k0 ≤ j → j < k → (sign_change_pairs p (grid n j)).length ≠ n := by
  intro fuel
  induction fuel with
  | zero =>
    intro k0 l h
    exact absurd h (by simp [find_bounds_loop])
  | succ fuel ih =>
    intro k0 l h
    simp only [find_bounds_loop] at h
    split_ifs at h with hlen
    · obtain rfl := Option.some.inj h
      exact ⟨k0, le_rfl, rfl, hlen, fun j hj1 hj2 => absurd (lt_of_le_of_lt hj1 hj2)
        (lt_irrefl _)⟩
    · obtain ⟨k, hk1, hk2, hk3, hk4⟩ := ih (k0 + 1) l h
      refine ⟨k, by omega, hk2, hk3, ?_⟩
      intro j hj1 hj2
      rcases eq_or_lt_of_le hj1 with rfl | hj
      · exact hlen
      · exact hk4 j (by omega) hj2

/-- C4: whenever `find_bisection_bounds` returns for `n ≥ 1`, it returns
exactly the `n` sign-change pairs of the evenly spaced `k * n + 1`-point
grid over `[-1, 1]` for the density `k ≥ 1` at which it returned (no
smaller density having produced exactly `n` changes): each pair is two
adjacent grid points with strictly negative value product, the pairs lie
in `[-1, 1]` with positive width, and they are non-overlapping in
increasing left-to-right order. -/
theorem find_bisection_bounds_spec (p : ℚ → ℚ) (n fuel : ℕ) (l : List (ℚ × ℚ))
    (hn : 1 ≤ n) (h : find_bisection_bounds p n fuel = some l) :
    ∃ k, 1 ≤ k ∧ l = sign_change_pairs p (grid n k) ∧ l.length = n ∧
      (∀ q ∈ l, ∃ i, i + 1 ≤ k * n ∧ q.1 = grid_pt n k i ∧
        q.2 = grid_pt n k (i + 1) ∧ p q.1 * p q.2 < 0) ∧
      (∀ q ∈ l, -1 ≤ q.1 ∧ q.1 < q.2 ∧ q.2 ≤ 1) ∧
      l.Pairwise (fun a b => a.2 ≤ b.1) ∧
      (∀ j, 1 ≤ j → j < k → (sign_change_pairs p (grid n j)).length ≠ n) := by
  obtain ⟨k, hk1, hk2, hk3, hk4⟩ := find_bounds_loop_some p n fuel 1 l h
  have hg : (grid n k).length = k * n + 1 := by simp [grid]
  have hquant : ∀ q ∈ l, ∃ i, i + 1 ≤ k * n ∧ q.1 = grid_pt n k i ∧
      q.2 = grid_pt n k (i + 1) ∧ p q.1 * p q.2 < 0 := by
    intro q hq
    rw [hk2] at hq
    have hmem := List.mem_filter.mp hq
    obtain ⟨i, h1, h2⟩ := adjPairs_mem_get _ q hmem.1
    obtain ⟨hlt, _⟩ := List.get?_eq_some.mp h2
    rw [hg] at hlt
    have e1 : q.1 = grid_pt n k i := by
      rw [grid_get n k i (by omega)] at h1
      exact (Option.some.inj h1).symm
    have e2 : q.2 = grid_pt n k (i + 1) := by
      rw [grid_get n k (i + 1) (by omega)] at h2
      exact (Option.some.inj h2).symm
    exact ⟨i, by omega, e1, e2, of_decide_eq_true hmem.2⟩
  refine ⟨k, hk1, hk2, hk3, hquant, ?_, ?_, hk4⟩
  · intro q hq
    obtain ⟨i, hi, e1, e2, _⟩ := hquant q hq
    rw [e1, e2]
    exact ⟨(grid_pt_bounds n k i hn hk1 (by omega)).1,
      grid_pt_strict n k hn hk1 (by omega),
      (grid_pt_bounds n k (i + 1) hn hk1 hi).2⟩
  · rw [hk2]
    unfold sign_change_pairs
    exact (adjPairs_pairwise _ ((grid_sorted_lt n k hn hk1).imp le_of_lt)).filter _

/-- Witness for C4 at `n = 1` with the order-1 Legendre polynomial: the
first grid `[-1, 1]` already isolates the single root. -/
theorem find_bisection_bounds_spec_witness :
    ∃ k, 1 ≤ k ∧
      [((-1 : ℚ), (1 : ℚ))] = sign_change_pairs (legendre_fun 1) (grid 1 k) ∧
      ([((-1 : ℚ), (1 : ℚ))]).length = 1 ∧
      (∀ q ∈ [((-1 : ℚ), (1 : ℚ))], ∃ i, i + 1 ≤ k * 1 ∧ q.1 = grid_pt 1 k i ∧
        q.2 = grid_pt 1 k (i + 1) ∧
        legendre_fun 1 q.1 * legendre_fun 1 q.2 < 0) ∧
      (∀ q ∈ [((-1 : ℚ), (1 : ℚ))], -1 ≤ q.1 ∧ q.1 < q.2 ∧ q.2 ≤ 1) ∧
      ([((-1 : ℚ), (1 : ℚ))]).Pairwise (fun a b => a.2 ≤ b.1) ∧
      (∀ j, 1 ≤ j → j < k →
        (sign_change_pairs (legendre_fun 1) (grid 1 j)).length ≠ 1) :=
  find_bisection_bounds_spec (legendre_fun 1) 1 2 [(-1, 1)] (by norm_num)
    (by norm_num [find_bisection_bounds, find_bounds_loop, sign_change_pairs, grid,
      grid_pt, adjPairs, legendre_fun, legendre_polynomial, List.range_succ,
      List.filter, decide_eq_true_eq])

/-! ### The quadrature composition -/

/-- Elementwise product of two images of the same list. -/
theorem zipWith_map_mul (g h : ℚ → ℚ) : ∀ (l : List ℚ),
    List.zipWith (fun w v => w * v) (l.map g) (l.map h) =
      l.map (fun r => g r * h r) := by
  intro l
  induction l with
  | nil => rfl
  | cons a t ih => simp [ih]

/-- The root list comprehension pairs each bracket with its root. -/
theorem roots_of_forall2 (fuel : ℕ) (p : ℚ → ℚ) :
    ∀ (bds : List (ℚ × ℚ)) (roots : List ℚ), roots_of fuel p bds = some roots →
      List.Forall₂ (fun bd r => hybrid_root fuel p bd = some r) bds roots := by
  intro bds
  induction bds with
  | nil =>
    intro roots h
    simp only [roots_of] at h
    obtain rfl := Option.some.inj h
    exact List.Forall₂.nil
  | cons bd rest ih =>
    intro roots h
    simp only [roots_of] at h
    cases hr : hybrid_root fuel p bd with
    | none =>
      cases hrs : roots_of fuel p rest with
      | none => rw [hr, hrs] at h; simp at h
      | some rs => rw [hr, hrs] at h; simp at h
    | some r =>
      cases hrs : roots_of fuel p rest with
      | none => rw [hr, hrs] at h; simp at h
      | some rs =>
        rw [hr, hrs] at h
        simp only at h
        obtain rfl := Option.some.inj h
        exact List.Forall₂.cons hr (ih rs hrs)

/-- C5: when the bracket search returns `n` brackets and the hybrid root
finder returns a root for each bracket, `integrate_legendre f n a b`
returns `0.5 * (b - a)` times the sum over the roots `r` of
`w(r) * f(x(r))` with weight `w(r) = 2 * (1 - r^2) / (n * P_{n-1}(r))^2`
and node `x(r) = 0.5 * ((b - a) * r + a + b)`. -/
theorem integrate_legendre_spec (fuel : ℕ) (f : ℚ → ℚ) (n : ℕ) (a b : ℚ)
    (bounds : List (ℚ × ℚ)) (roots : List ℚ)
    (hb : find_bisection_bounds (legendre_fun n) n fuel = some bounds)
    (hr : roots_of fuel (legendre_fun n) bounds = some roots) :
    List.Forall₂ (fun bd r =>
      hybrid_secant_bisection fuel bd.1 bd.2 (legendre_fun n) eps0 = .ok (some r))
      bounds roots ∧
    integrate_legendre fuel f n a b =
      some (1/2 * (b - a) * (roots.map (fun r =>
        (2 * (1 - r ^ 2) / (((n : ℚ) * legendre_polynomial r ((n : ℤ) - 1)) ^ 2)) *
          f (1/2 * ((b - a) * r + a + b)))).sum) := by
  constructor
  · refine (roots_of_forall2 fuel (legendre_fun n) bounds roots hr).imp ?_
    intro bd r hbd
    unfold hybrid_root at hbd
    cases hh : hybrid_secant_bisection fuel bd.1 bd.2 (legendre_fun n) eps0 with
    | error e => rw [hh] at hbd; simp at hbd
    | ok o =>
      rw [hh] at hbd
      simp only at hbd
      rw [hbd]
  · simp only [integrate_legendre, hb, hr]
    rw [zipWith_map_mul]
    simp only [legendre_weight, legendre_node]

/-- Witness for C5 at `n = 1`, `f = id`, `[a, b] = [0, 1]`: the single
bracket is `(-1, 1)` and the hybrid finder returns `1/2` for it. -/
theorem integrate_legendre_spec_witness :
    List.Forall₂ (fun bd r =>
      hybrid_secant_bisection 5 bd.1 bd.2 (legendre_fun ((1 : ℕ) : ℤ)) eps0 =
        .ok (some r)) [((-1 : ℚ), (1 : ℚ))] [(1/2 : ℚ)] ∧
    integrate_legendre 5 (fun x => x) 1 0 1 =
      some (1/2 * (1 - 0) * (([(1/2 : ℚ)]).map (fun r =>
        (2 * (1 - r ^ 2) /
          ((((1 : ℕ) : ℚ) * legendre_polynomial r (((1 : ℕ) : ℤ) - 1)) ^ 2)) *
          (fun x => x) (1/2 * ((1 - 0) * r + 0 + 1)))).sum) :=
  integrate_legendre_spec 5 (fun x => x) 1 0 1 [(-1, 1)] [1/2]
    (by norm_num [find_bisection_bounds, find_bounds_loop, sign_change_pairs, grid,
      grid_pt, adjPairs, legendre_fun, legendre_polynomial, List.range_succ,
      List.filter, decide_eq_true_eq])
    (by norm_num [roots_of, hybrid_root, hybrid_secant_bisection, hybrid_loop,
      hybrid_candidate, legendre_fun, legendre_polynomial, legendre_loop, eps0,
      abs_le])

/-! ### Histogram binning validation -/

/-- C8 (code_bug evidence): the range validation of both binning routines
checks `x_max < x_min` only, so an equal range passes: `binning_lin`
returns the single edge `[x_min]` with no error and every entry check of
`binning_log` passes, although both docstrings promise a `ValueError`
whenever `x_max` is smaller than or equal to `x_min`; a strictly inverted
range is rejected as documented. -/
theorem binning_equal_range_no_error :
    binning_lin 0 0 1 true = .ok [0] ∧
    (∀ e, binning_lin 0 0 1 true ≠ .error e) ∧
    binning_log_check 1 1 1 2 = none ∧
    binning_lin 1 0 1 true = .error "x_max must be larger than x_min." := by
  have h1 : binning_lin 0 0 1 true = .ok [0] := by
    norm_num [binning_lin, List.range_succ, List.getLastD]
  refine ⟨h1, fun e => by rw [h1]; simp, ?_, ?_⟩
  · norm_num [binning_log_check]
  · norm_num [binning_lin]

end MathStuff
